import Mathlib

/-!
Verification of the modal-migration patch script.

The program reads one source file, applies fifteen literal find-and-replace
rules in a fixed order, applies one regular-expression rule whose pattern is
metacharacter-free apart from an escaped pair of parentheses around the
capture group (so it matches exactly one literal string and rewrites it to
group one followed by literal text), and writes the result back to the same
path.  Documents are modelled as lists of characters; each replacement rule
is modelled by the function replaceAll below, which performs the leftmost,
non-overlapping, all-occurrences substitution that both the string replace
method and the regex substitution of the host language perform: the scan
resumes after the inserted replacement and never rescans inserted text.
-/

set_option maxRecDepth 100000
set_option maxHeartbeats 2000000

namespace FixModals

/-- Worker for replaceAll, structurally recursive on the document.  A
positive first argument means that many characters of the document still
belong to a just-matched occurrence and are skipped; at zero the worker
tests for a match at the current position, emits the replacement text on a
match and then skips the rest of the matched occurrence, and otherwise
keeps the current character. -/
def replAux (m r : List Char) : Nat → List Char → List Char
  | _, [] => []
  | k, c :: t =>
    match k with
    | Nat.succ k2 => replAux m r k2 t
    | 0 =>
      if m ≠ [] ∧ m.isPrefixOf (c :: t) then
        r ++ replAux m r (m.length - 1) t
      else
        c :: replAux m r 0 t

/-- Replace every occurrence of the pattern m in s by r, scanning left to
right and never rescanning inserted text.  This is the semantics of a single
content replacement step of the script. -/
def replaceAll (m r s : List Char) : List Char :=
  replAux m r 0 s

/-- Skipping k characters is dropping them. -/
theorem replAux_skip (m r : List Char) :
    ∀ (t : List Char) (k : Nat), replAux m r k t = replAux m r 0 (List.drop k t) := by
  intro t
  induction t with
  | nil =>
    intro k
    cases k <;> rfl
  | cons c t2 ih =>
    intro k
    cases k with
    | zero => rfl
    | succ k2 =>
      show replAux m r k2 t2 = replAux m r 0 (List.drop k2 t2)
      exact ih k2

theorem replaceAll_nil (m r : List Char) : replaceAll m r [] = [] := rfl

theorem replaceAll_cons (m r : List Char) (c : Char) (t : List Char) :
    replaceAll m r (c :: t) =
      if m ≠ [] ∧ m.isPrefixOf (c :: t) then
        r ++ replaceAll m r (List.drop (m.length - 1) t)
      else
        c :: replaceAll m r t := by
  show (if m ≠ [] ∧ m.isPrefixOf (c :: t) then
      r ++ replAux m r (m.length - 1) t
    else
      c :: replAux m r 0 t) = _
  by_cases h : m ≠ [] ∧ m.isPrefixOf (c :: t)
  · rw [if_pos h, if_pos h, replAux_skip]
    rfl
  · rw [if_neg h, if_neg h]
    rfl

/-- Splits m r s out holds when out is obtained from s by the greedy
left-to-right replacement of occurrences of m by r: at each step either the
head character is kept because no occurrence of m starts there, or an
occurrence of m is consumed and r is emitted. -/
inductive Splits (m r : List Char) : List Char → List Char → Prop
  | nil : Splits m r [] []
  | keep (c : Char) (s out : List Char) :
      ¬ m <+: (c :: s) → Splits m r s out → Splits m r (c :: s) (c :: out)
  | rep (s out : List Char) :
      m ≠ [] → Splits m r s out → Splits m r (m ++ s) (r ++ out)

theorem splits_replaceAll (m r : List Char) (hm : m ≠ []) :
    ∀ s, Splits m r s (replaceAll m r s) := by
  have main : ∀ (n : Nat) (s : List Char), s.length ≤ n →
      Splits m r s (replaceAll m r s) := by
    intro n
    induction n with
    | zero =>
      intro s hs
      have : s = [] := List.eq_nil_of_length_eq_zero (Nat.le_zero.mp hs)
      subst this
      rw [replaceAll_nil]
      exact Splits.nil
    | succ k ih =>
      intro s hs
      match s with
      | [] =>
        rw [replaceAll_nil]
        exact Splits.nil
      | c :: t =>
        rw [replaceAll_cons]
        by_cases h : m ≠ [] ∧ m.isPrefixOf (c :: t)
        · rw [if_pos h]
          have hpre : m <+: (c :: t) := List.isPrefixOf_iff_prefix.mp h.2
          obtain ⟨s2, hs2⟩ := hpre
          have hdrop : List.drop (m.length - 1) t = s2 := by
            have h1 : List.drop m.length (c :: t) = s2 := by
              rw [← hs2]
              exact List.drop_left m s2
            have h2 : m.length = (m.length - 1) + 1 := by
              have : 0 < m.length := List.length_pos.mpr hm
              omega
            rw [h2, List.drop_succ_cons] at h1
            exact h1
          rw [hdrop]
          have hlen : s2.length ≤ k := by
            have hl : m.length + s2.length = t.length + 1 := by
              have := congrArg List.length hs2
              simp only [List.length_append, List.length_cons] at this
              omega
            have hml : 0 < m.length := List.length_pos.mpr hm
            have ht : t.length ≤ k := by
              simp only [List.length_cons] at hs
              omega
            omega
          have hsp := Splits.rep (m := m) (r := r) s2 (replaceAll m r s2) hm (ih s2 hlen)
          rw [hs2] at hsp
          exact hsp
        · rw [if_neg h]
          have hnp : ¬ m <+: (c :: t) := by
            intro hpre
            exact h ⟨hm, List.isPrefixOf_iff_prefix.mpr hpre⟩
          have ht : t.length ≤ k := by
            simp only [List.length_cons] at hs
            omega
          exact Splits.keep c t (replaceAll m r t) hnp (ih t ht)
  intro s
  exact main s.length s (Nat.le_refl _)

theorem splits_sound {m r : List Char} :
    ∀ {s out : List Char}, Splits m r s out → out = replaceAll m r s := by
  intro s out h
  induction h with
  | nil => rfl
  | keep c s out hnp hsp ih =>
    rw [replaceAll_cons, if_neg]
    · rw [ih]
    · intro hand
      exact hnp (List.isPrefixOf_iff_prefix.mp hand.2)
  | rep s out hm hsp ih =>
    obtain ⟨c, m0, hm0⟩ := List.exists_cons_of_ne_nil hm
    subst hm0
    show r ++ out = replaceAll (c :: m0) r (c :: (m0 ++ s))
    rw [replaceAll_cons, if_pos]
    · have hdrop : List.drop ((c :: m0).length - 1) (m0 ++ s) = s := by
        have : (c :: m0).length - 1 = m0.length := by
          simp only [List.length_cons]
          omega
        rw [this]
        exact List.drop_left m0 s
      rw [hdrop, ih]
    · constructor
      · exact List.cons_ne_nil c m0
      · exact List.isPrefixOf_iff_prefix.mpr ⟨s, by simp⟩

theorem splits_det {m r s out1 out2 : List Char}
    (h1 : Splits m r s out1) (h2 : Splits m r s out2) : out1 = out2 := by
  rw [splits_sound h1, splits_sound h2]

/-! Small wrappers around library facts, fixing the shapes used below. -/

theorem pre_inf {a b : List Char} (h : a <+: b) : a <:+: b :=
  List.IsPrefix.isInfix h

theorem suf_inf {a b : List Char} (h : a <:+ b) : a <:+: b :=
  List.IsSuffix.isInfix h

theorem pre_or_pre {a b c : List Char} (h1 : a <+: c) (h2 : b <+: c) :
    a <+: b ∨ b <+: a :=
  List.prefix_or_prefix_of_prefix h1 h2

theorem nilPre (l : List Char) : [] <+: l := ⟨l, rfl⟩

theorem nilInf (l : List Char) : [] <:+: l := ⟨[], l, rfl⟩

theorem pre_of_isPrefixOf {m s : List Char} (h : m.isPrefixOf s = true) : m <+: s :=
  List.isPrefixOf_iff_prefix.mp h

theorem isPrefixOf_of_pre {m s : List Char} (h : m <+: s) : m.isPrefixOf s = true :=
  List.isPrefixOf_iff_prefix.mpr h

/-- If the pattern does not occur in s, a replacement pass is the identity. -/
theorem splits_of_noocc {m r : List Char} :
    ∀ {v : List Char}, ¬ m <:+: v → Splits m r v v := by
  intro v
  induction v with
  | nil =>
    intro _
    exact Splits.nil
  | cons c t ih =>
    intro hocc
    refine Splits.keep c t t ?_ (ih ?_)
    · intro hp
      exact hocc (pre_inf hp)
    · intro hi
      exact hocc (List.infix_cons hi)

theorem replaceAll_noop {m r s : List Char} (hocc : ¬ m <:+: s) :
    replaceAll m r s = s :=
  (splits_sound (splits_of_noocc hocc)).symm

/-- If the pattern occurs in s, the replacement text occurs in the output. -/
theorem splits_hits {m r : List Char} (hm : m ≠ []) :
    ∀ {s out : List Char}, Splits m r s out → m <:+: s → r <:+: out := by
  intro s out h
  induction h with
  | nil =>
    intro hq
    exact absurd (List.eq_nil_of_infix_nil hq) hm
  | keep c s1 out1 hnp hsp ih =>
    intro hq
    rcases List.infix_cons_iff.mp hq with hpre | htail
    · exact absurd hpre hnp
    · exact List.infix_cons (ih htail)
  | rep s1 out1 hm2 hsp ih =>
    intro _
    exact pre_inf (List.prefix_append r out1)

/-- No nonempty suffix of a is a prefix of b. -/
def NoSufPre (a b : List Char) : Prop :=
  ∀ t ∈ a.tails, t ≠ [] → ¬ t <+: b

/-- Independence of a pattern q from a replacement text r: q does not occur
inside r, r does not occur inside q, and no occurrence of q can straddle a
boundary of an inserted copy of r. -/
def Indep (q r : List Char) : Prop :=
  ¬ q <:+: r ∧ ¬ r <:+: q ∧ NoSufPre r q ∧ NoSufPre q r

/-- Separation of a pattern m from a string q: no occurrence of m can
overlap an occurrence of q, in either direction. -/
def SepPair (m q : List Char) : Prop :=
  (∀ t ∈ m.tails, t ≠ [] → t ≠ m → ¬ t <+: q ∧ ¬ q <+: t) ∧
  (∀ t ∈ q.tails, t ≠ [] → ¬ t <+: m ∧ ¬ m <+: t)

/-- An occurrence inside an append either lies in one part or straddles the
boundary, in which case it splits into a nonempty suffix of the left part
and a nonempty prefix of the right part. -/
theorem infix_append_split (q b : List Char) :
    ∀ (a : List Char), q <:+: a ++ b →
      q <:+: a ∨ q <:+: b ∨
        ∃ q1 q2, q = q1 ++ q2 ∧ q1 ≠ [] ∧ q2 ≠ [] ∧ q1 <:+ a ∧ q2 <+: b := by
  intro a
  induction a with
  | nil =>
    intro h
    right
    left
    simpa using h
  | cons c a2 ih =>
    intro h
    have h2 : q <:+: c :: (a2 ++ b) := by simpa using h
    rcases List.infix_cons_iff.mp h2 with hpre | htail
    · cases q with
      | nil =>
        left
        exact nilInf _
      | cons d q0 =>
        obtain ⟨hd, hq0⟩ := List.cons_prefix_cons.mp hpre
        subst hd
        rcases pre_or_pre hq0 (List.prefix_append a2 b) with h1 | h1
        · left
          exact pre_inf (List.cons_prefix_cons.mpr ⟨rfl, h1⟩)
        · obtain ⟨q2, hq2⟩ := h1
          have hq2b : q2 <+: b := by
            obtain ⟨t, ht⟩ := hq0
            refine ⟨t, ?_⟩
            have : a2 ++ (q2 ++ t) = a2 ++ b := by
              rw [← List.append_assoc, hq2, ht]
            exact List.append_cancel_left this
          by_cases hq2nil : q2 = []
          · subst hq2nil
            left
            have : q0 = a2 := by
              rw [← hq2]
              simp
            subst this
            exact List.infix_refl _
          · right
            right
            refine ⟨d :: a2, q2, ?_, List.cons_ne_nil d a2, hq2nil, List.suffix_refl _, hq2b⟩
            rw [← hq2]
            simp
    · rcases ih htail with h1 | h1 | ⟨q1, q2, hq12, hq1ne, hq2ne, hq1, hq2⟩
      · left
        exact List.infix_cons h1
      · right
        left
        exact h1
      · right
        right
        exact ⟨q1, q2, hq12, hq1ne, hq2ne, hq1.trans (List.suffix_cons c a2), hq2⟩

/-- Prefix transfer: under the straddling conditions, any nonempty suffix of
q that is a prefix of the output of a replacement pass was already a prefix
of the input. -/
theorem splits_kept_pre {m r q : List Char}
    (hqr : NoSufPre q r) (hrq : ¬ r <:+: q) :
    ∀ {s out : List Char}, Splits m r s out →
      ∀ w, w ≠ [] → w <:+ q → w <+: out → w <+: s := by
  intro s out h
  induction h with
  | nil =>
    intro w hw _ hpre
    exact absurd (List.prefix_nil.mp hpre) hw
  | keep c s1 out1 hnp hsp ih =>
    intro w hw hwq hpre
    cases w with
    | nil => exact absurd rfl hw
    | cons d w0 =>
      obtain ⟨hd, hw0⟩ := List.cons_prefix_cons.mp hpre
      subst hd
      by_cases h0 : w0 = []
      · subst h0
        exact List.cons_prefix_cons.mpr ⟨rfl, nilPre s1⟩
      · have hw0q : w0 <:+ q := (List.suffix_cons d w0).trans hwq
        exact List.cons_prefix_cons.mpr ⟨rfl, ih w0 h0 hw0q hw0⟩
  | rep s1 out1 hm hsp ih =>
    intro w hw hwq hpre
    rcases pre_or_pre hpre (List.prefix_append r out1) with h1 | h1
    · exact absurd h1 (hqr w ((List.mem_tails w q).mpr hwq) hw)
    · exact absurd ((pre_inf h1).trans (suf_inf hwq)) hrq

/-- Non-creation: a replacement pass cannot create a new occurrence of an
independent pattern q; any occurrence of q in the output already occurred in
the input. -/
theorem splits_no_create {m r q : List Char} (hind : Indep q r) :
    ∀ {s out : List Char}, Splits m r s out → q <:+: out → q <:+: s := by
  intro s out h
  induction h with
  | nil =>
    intro hq
    exact hq
  | keep c s1 out1 hnp hsp ih =>
    intro hq
    rcases List.infix_cons_iff.mp hq with hpre | htail
    · cases q with
      | nil => exact nilInf _
      | cons d q0 =>
        obtain ⟨hd, hq0⟩ := List.cons_prefix_cons.mp hpre
        subst hd
        by_cases h0 : q0 = []
        · subst h0
          exact pre_inf (List.cons_prefix_cons.mpr ⟨rfl, nilPre s1⟩)
        · have hkept := splits_kept_pre hind.2.2.2 hind.2.1 hsp q0 h0
            (List.suffix_cons d q0) hq0
          exact pre_inf (List.cons_prefix_cons.mpr ⟨rfl, hkept⟩)
    · exact List.infix_cons (ih htail)
  | rep s1 out1 hm hsp ih =>
    intro hq
    rcases infix_append_split q out1 r hq with h1 | h1 | ⟨q1, q2, hq12, hq1ne, hq2ne, hq1, hq2⟩
    · exact absurd h1 hind.1
    · exact (ih h1).trans (suf_inf ⟨m, rfl⟩)
    · exact absurd ⟨q2, hq12.symm⟩ (hind.2.2.1 q1 ((List.mem_tails q1 r).mpr hq1) hq1ne)

/-- Elimination: after a replacement pass for an independent rule, the
pattern itself no longer occurs anywhere in the output. -/
theorem splits_no_self {m r : List Char} (hm : m ≠ []) (hind : Indep m r) :
    ∀ {s out : List Char}, Splits m r s out → ¬ m <:+: out := by
  intro s out h
  induction h with
  | nil =>
    intro hq
    exact hm (List.eq_nil_of_infix_nil hq)
  | keep c s1 out1 hnp hsp ih =>
    intro hq
    rcases List.infix_cons_iff.mp hq with hpre | htail
    · obtain ⟨d, m0, hm0⟩ := List.exists_cons_of_ne_nil hm
      subst hm0
      obtain ⟨hd, hm0p⟩ := List.cons_prefix_cons.mp hpre
      subst hd
      by_cases h0 : m0 = []
      · subst h0
        exact hnp (List.cons_prefix_cons.mpr ⟨rfl, nilPre s1⟩)
      · have hkept := splits_kept_pre hind.2.2.2 hind.2.1 hsp m0 h0
          (List.suffix_cons d m0) hm0p
        exact hnp (List.cons_prefix_cons.mpr ⟨rfl, hkept⟩)
    · exact ih htail
  | rep s1 out1 hm2 hsp ih =>
    intro hq
    rcases infix_append_split m out1 r hq with h1 | h1 | ⟨q1, q2, hq12, hq1ne, hq2ne, hq1, hq2⟩
    · exact absurd h1 hind.1
    · exact ih h1
    · exact absurd ⟨q2, hq12.symm⟩ (hind.2.2.1 q1 ((List.mem_tails q1 r).mpr hq1) hq1ne)

/-- Front preservation: if a suffix w of a separated string q sits at the
front of the input of a replacement pass, it sits verbatim at the front of
the output. -/
theorem splits_front_kept {m r q : List Char}
    (hsep2 : ∀ t ∈ q.tails, t ≠ [] → ¬ t <+: m ∧ ¬ m <+: t) :
    ∀ {s out : List Char}, Splits m r s out →
      ∀ w y, w <:+ q → s = w ++ y → w <+: out := by
  intro s out h
  induction h with
  | nil =>
    intro w y _ hsy
    have : w = [] := (List.append_eq_nil.mp hsy.symm).1
    subst this
    exact nilPre _
  | keep c s1 out1 hnp hsp ih =>
    intro w y hwq hsy
    cases w with
    | nil => exact nilPre _
    | cons d w0 =>
      have hsy2 : c :: s1 = d :: (w0 ++ y) := by simpa using hsy
      have hd : c = d := (List.cons.injEq c s1 d (w0 ++ y)).mp hsy2 |>.1
      have hs1 : s1 = w0 ++ y := (List.cons.injEq c s1 d (w0 ++ y)).mp hsy2 |>.2
      subst hd
      have hw0q : w0 <:+ q := (List.suffix_cons c w0).trans hwq
      exact List.cons_prefix_cons.mpr ⟨rfl, ih w0 y hw0q hs1⟩
  | rep s1 out1 hm hsp ih =>
    intro w y hwq hsy
    cases w with
    | nil => exact nilPre _
    | cons d w0 =>
      have hwpre : (d :: w0) <+: m ++ s1 := ⟨y, hsy.symm⟩
      rcases pre_or_pre hwpre (List.prefix_append m s1) with h1 | h1
      · exact absurd h1
          (hsep2 (d :: w0) ((List.mem_tails _ q).mpr hwq) (List.cons_ne_nil d w0)).1
      · exact absurd h1
          (hsep2 (d :: w0) ((List.mem_tails _ q).mpr hwq) (List.cons_ne_nil d w0)).2

/-- Occurrence preservation: a replacement pass for a rule whose pattern is
separated from q preserves every occurrence of q. -/
theorem splits_preserved {m r q : List Char} (hsep : SepPair m q) :
    ∀ {s out : List Char}, Splits m r s out → q <:+: s → q <:+: out := by
  intro s out h
  induction h with
  | nil =>
    intro hq
    have : q = [] := List.eq_nil_of_infix_nil hq
    subst this
    exact nilInf _
  | keep c s1 out1 hnp hsp ih =>
    intro hq
    obtain ⟨x, y, hxy⟩ := hq
    cases x with
    | nil =>
      have hfull : Splits m r (c :: s1) (c :: out1) := Splits.keep c s1 out1 hnp hsp
      have hfront : q <+: c :: out1 :=
        splits_front_kept hsep.2 hfull q y (List.suffix_refl q) (by simpa using hxy.symm)
      exact pre_inf hfront
    | cons d x0 =>
      have hxy2 : c :: s1 = d :: (x0 ++ q ++ y) := by
        rw [← hxy]
        simp
      have hd : c = d := (List.cons.injEq c s1 d (x0 ++ q ++ y)).mp hxy2 |>.1
      have hs1 : s1 = x0 ++ q ++ y := (List.cons.injEq c s1 d (x0 ++ q ++ y)).mp hxy2 |>.2
      subst hd
      exact List.infix_cons (ih ⟨x0, y, hs1.symm⟩)
  | rep s1 out1 hm2 hsp ih =>
    intro hq
    obtain ⟨x, y, hxy⟩ := hq
    by_cases hqnil : q = []
    · subst hqnil
      exact nilInf _
    have hmpre : m <+: m ++ s1 := List.prefix_append m s1
    have hxpre : x <+: m ++ s1 := ⟨q ++ y, by rw [← hxy]; simp⟩
    rcases pre_or_pre hmpre hxpre with h1 | h1
    · obtain ⟨x2, hx2⟩ := h1
      have hs1 : x2 ++ q ++ y = s1 := by
        have : m ++ (x2 ++ q ++ y) = m ++ s1 := by
          rw [← hxy, ← hx2]
          simp
        exact List.append_cancel_left this
      exact (ih ⟨x2, y, hs1⟩).trans (suf_inf ⟨r, rfl⟩)
    · obtain ⟨m2, hm2eq⟩ := h1
      have hqy : q ++ y = m2 ++ s1 := by
        have : x ++ (q ++ y) = x ++ (m2 ++ s1) := by
          rw [← List.append_assoc, hxy, ← List.append_assoc, hm2eq]
        exact List.append_cancel_left this
      by_cases hm2nil : m2 = []
      · subst hm2nil
        have hxm : x = m := by simpa using hm2eq
        have hs1 : q ++ y = s1 := by simpa using hqy
        have hfront : q <+: out1 :=
          splits_front_kept hsep.2 hsp q y (List.suffix_refl q) hs1.symm
        exact (pre_inf hfront).trans (suf_inf ⟨r, rfl⟩)
      · have hm2pre : m2 <+: q ++ y := ⟨s1, hqy.symm⟩
        rcases pre_or_pre hm2pre (List.prefix_append q y) with h2 | h2
        · by_cases hxnil : x = []
          · subst hxnil
            have hmm : m2 = m := by simpa using hm2eq
            subst hmm
            exact absurd h2
              (hsep.2 q ((List.mem_tails q q).mpr (List.suffix_refl q)) hqnil).2
          · have hm2ne : m2 ≠ m := by
              intro hmm
              apply hxnil
              have hl := congrArg List.length hm2eq
              rw [List.length_append, hmm] at hl
              have : x.length = 0 := by omega
              exact List.eq_nil_of_length_eq_zero this
            exact absurd h2
              (hsep.1 m2 ((List.mem_tails m2 m).mpr ⟨x, hm2eq⟩) hm2nil hm2ne).1
        · by_cases hxnil : x = []
          · subst hxnil
            have hmm : m2 = m := by simpa using hm2eq
            subst hmm
            exact absurd h2
              (hsep.2 q ((List.mem_tails q q).mpr (List.suffix_refl q)) hqnil).1
          · have hm2ne : m2 ≠ m := by
              intro hmm
              apply hxnil
              have hl := congrArg List.length hm2eq
              rw [List.length_append, hmm] at hl
              have : x.length = 0 := by omega
              exact List.eq_nil_of_length_eq_zero this
            exact absurd h2
              (hsep.1 m2 ((List.mem_tails m2 m).mpr ⟨x, hm2eq⟩) hm2nil hm2ne).2

/-!
The replacement table of the script, in declaration order.  Characters that
the token conventions of this development reserve are written with character
escapes: \x27 is the apostrophe, \x7b is the opening curly brace, ✅ and
❌ are the two emoji that prefix some alert messages.
-/

def alertLoginBookingM : List Char :=
  ("alert(\x27Please log in to continue booking\x27);").data

def alertLoginBookingR : List Char :=
  ("await showAlert(\x27Please log in to continue booking\x27, \x27Login Required\x27);").data

def alertLoginBookingDotM : List Char :=
  ("alert(\x27Please log in to continue booking.\x27)").data

def alertLoginBookingDotR : List Char :=
  ("await showAlert(\x27Please log in to continue booking.\x27, \x27Login Required\x27)").data

def alertSelectDjM : List Char :=
  ("alert(\x27Please select a DJ first.\x27);").data

def alertSelectDjR : List Char :=
  ("await showAlert(\x27Please select a DJ first.\x27, \x27Selection Required\x27);").data

def alertSelectDateM : List Char :=
  ("alert(\x27Please select a date first.\x27);").data

def alertSelectDateR : List Char :=
  ("await showAlert(\x27Please select a date first.\x27, \x27Selection Required\x27);").data

def alertLoginContinueM : List Char :=
  ("alert(\x27Please log in to continue.\x27);").data

def alertLoginContinueR : List Char :=
  ("await showAlert(\x27Please log in to continue.\x27, \x27Login Required\x27);").data

def alertNoBookingDataM : List Char :=
  ("alert(\x27No booking data found. Please start from the beginning.\x27);").data

def alertNoBookingDataR : List Char :=
  ("await showAlert(\x27No booking data found. Please start from the beginning.\x27, \x27Error\x27);").data

def alertLoginWithBookingM : List Char :=
  ("alert(\x27Please log in to continue with your booking.\x27);").data

def alertLoginWithBookingR : List Char :=
  ("await showAlert(\x27Please log in to continue with your booking.\x27, \x27Login Required\x27);").data

def alertSessionExpiredM : List Char :=
  ("alert(\x27Your session has expired. Please log in again.\x27);").data

def alertSessionExpiredR : List Char :=
  ("await showAlert(\x27Your session has expired. Please log in again.\x27, \x27Session Expired\x27);").data

def alertErrorMessageM : List Char :=
  ("alert(\x27Error: \x27 + error.message);").data

def alertErrorMessageR : List Char :=
  ("await showError(\x27Error: \x27 + error.message, \x27Booking Error\x27);").data

def alertStatusUpdatedM : List Char :=
  ("alert(\x27✅ Booking status updated successfully!\x27)").data

def alertStatusUpdatedR : List Char :=
  ("await showSuccess(\x27Booking status updated successfully!\x27, \x27Success\x27)").data

def alertFailedUpdateM : List Char :=
  ("alert(\x27❌ Failed to update status: \x27 + response.data.error)").data

def alertFailedUpdateR : List Char :=
  ("await showError(\x27Failed to update status: \x27 + response.data.error, \x27Update Failed\x27)").data

def alertErrorUpdatingM : List Char :=
  ("alert(\x27❌ Error updating status\x27)").data

def alertErrorUpdatingR : List Char :=
  ("await showError(\x27Error updating status\x27, \x27Update Failed\x27)").data

def confirmDjM : List Char :=
  ("const shouldLogin = confirm(\x27You need to be logged in to book a DJ. Would you like to log in now?\x27);").data

def confirmDjR : List Char :=
  ("const shouldLogin = await showConfirm(\x27You need to be logged in to book a DJ. Would you like to log in now?\x27, \x27Login Required\x27);").data

def confirmPhotoboothM : List Char :=
  ("const shouldLogin = confirm(\x27You need to be logged in to book a photobooth. Would you like to log in now?\x27);").data

def confirmPhotoboothR : List Char :=
  ("const shouldLogin = await showConfirm(\x27You need to be logged in to book a photobooth. Would you like to log in now?\x27, \x27Login Required\x27);").data

def domLoadedM : List Char :=
  ("window.addEventListener(\x27DOMContentLoaded\x27, () => \x7b").data

def domLoadedR : List Char :=
  ("window.addEventListener(\x27DOMContentLoaded\x27, async () => \x7b").data

/-- The one regular-expression rule.  Its pattern has no unescaped
metacharacters, so as a regular expression it matches exactly this literal
string; the replacement template pastes the single capture group (the whole
text before the space and brace) followed by literal text, producing exactly
the literal below.  The substitution therefore coincides with the literal
all-occurrences replacement performed by replaceAll. -/
def ctcM : List Char :=
  ("continueToCalendar() \x7b").data

def ctcR : List Char :=
  ("continueToCalendar() async \x7b").data

/-- The fifteen literal replacement rules, in the order the script applies
them. -/
def literalRules : List (List Char × List Char) :=
  [(alertLoginBookingM, alertLoginBookingR),
   (alertLoginBookingDotM, alertLoginBookingDotR),
   (alertSelectDjM, alertSelectDjR),
   (alertSelectDateM, alertSelectDateR),
   (alertLoginContinueM, alertLoginContinueR),
   (alertNoBookingDataM, alertNoBookingDataR),
   (alertLoginWithBookingM, alertLoginWithBookingR),
   (alertSessionExpiredM, alertSessionExpiredR),
   (alertErrorMessageM, alertErrorMessageR),
   (alertStatusUpdatedM, alertStatusUpdatedR),
   (alertFailedUpdateM, alertFailedUpdateR),
   (alertErrorUpdatingM, alertErrorUpdatingR),
   (confirmDjM, confirmDjR),
   (confirmPhotoboothM, confirmPhotoboothR),
   (domLoadedM, domLoadedR)]

/-- All sixteen rules: the literal rules followed by the regex rule. -/
def rules : List (List Char × List Char) :=
  literalRules ++ [(ctcM, ctcR)]

/-- One replacement step of the pipeline. -/
def applyRule (s : List Char) (p : List Char × List Char) : List Char :=
  replaceAll p.1 p.2 s

/-- The full content transformation of the script: the fifteen literal
replacements followed by the regex replacement, in declaration order. -/
def patch (d : List Char) : List Char :=
  List.foldl applyRule d rules

theorem rulesNE : ∀ p ∈ rules, p.1 ≠ [] := by decide

theorem rulesNodup : rules.Nodup := by decide

instance (a b : List Char) : Decidable (NoSufPre a b) :=
  inferInstanceAs (Decidable (∀ t ∈ a.tails, t ≠ [] → ¬ t <+: b))

instance (q r : List Char) : Decidable (Indep q r) :=
  inferInstanceAs (Decidable (¬ q <:+: r ∧ ¬ r <:+: q ∧ NoSufPre r q ∧ NoSufPre q r))

instance (m q : List Char) : Decidable (SepPair m q) :=
  inferInstanceAs (Decidable
    ((∀ t ∈ m.tails, t ≠ [] → t ≠ m → ¬ t <+: q ∧ ¬ q <+: t) ∧
     (∀ t ∈ q.tails, t ≠ [] → ¬ t <+: m ∧ ¬ m <+: t)))

/-!
Executable checkers for the side conditions, with soundness bridges.  The
generic decidability instances for the conditions build large terms; these
first-order Boolean scans keep the kernel work for the concrete rule table
small.
-/

def infB (a b : List Char) : Bool :=
  (List.tails b).any fun t => a.isPrefixOf t

def noSufPreB (a b : List Char) : Bool :=
  (List.tails a).all fun t => t.isEmpty || !(t.isPrefixOf b)

def indepB (q r : List Char) : Bool :=
  !(infB q r) && !(infB r q) && noSufPreB r q && noSufPreB q r

def sepB (m q : List Char) : Bool :=
  ((List.tails m).all fun t =>
    t.isEmpty || (t == m) || (!(t.isPrefixOf q) && !(q.isPrefixOf t))) &&
  ((List.tails q).all fun t =>
    t.isEmpty || (!(t.isPrefixOf m) && !(m.isPrefixOf t)))

theorem infB_eq_true {a b : List Char} : infB a b = true ↔ a <:+: b := by
  constructor
  · intro h
    obtain ⟨t, ht, hp⟩ := List.any_eq_true.mp h
    exact (pre_inf (pre_of_isPrefixOf hp)).trans (suf_inf ((List.mem_tails t b).mp ht))
  · intro h
    obtain ⟨t, h1, h2⟩ := List.infix_iff_prefix_suffix.mp h
    exact List.any_eq_true.mpr ⟨t, (List.mem_tails t b).mpr h2, isPrefixOf_of_pre h1⟩

theorem not_inf_of_infB_false {a b : List Char} (h : infB a b = false) : ¬ a <:+: b := by
  intro hocc
  rw [infB_eq_true.mpr hocc] at h
  exact Bool.noConfusion h

theorem noSufPreB_sound {a b : List Char} (h : noSufPreB a b = true) : NoSufPre a b := by
  intro t ht hne hpre
  have h1 := List.all_eq_true.mp h t ht
  rw [Bool.or_eq_true] at h1
  rcases h1 with h1 | h1
  · cases t with
    | nil => exact hne rfl
    | cons c t2 => exact absurd h1 (by simp [List.isEmpty])
  · rw [isPrefixOf_of_pre hpre] at h1
    simp at h1

theorem indepB_sound {q r : List Char} (h : indepB q r = true) : Indep q r := by
  simp only [indepB, Bool.and_eq_true] at h
  obtain ⟨⟨⟨h1, h2⟩, h3⟩, h4⟩ := h
  rw [Bool.not_eq_true'] at h1 h2
  exact ⟨not_inf_of_infB_false h1, not_inf_of_infB_false h2,
    noSufPreB_sound h3, noSufPreB_sound h4⟩

theorem sepB_sound {m q : List Char} (h : sepB m q = true) : SepPair m q := by
  simp only [sepB, Bool.and_eq_true] at h
  obtain ⟨h1, h2⟩ := h
  constructor
  · intro t ht hne hnm
    have hb := List.all_eq_true.mp h1 t ht
    rw [Bool.or_eq_true, Bool.or_eq_true] at hb
    rcases hb with (hb | hb) | hb
    · cases t with
      | nil => exact absurd rfl hne
      | cons c t2 => exact absurd hb (by simp [List.isEmpty])
    · exact absurd (eq_of_beq hb) hnm
    · rw [Bool.and_eq_true, Bool.not_eq_true', Bool.not_eq_true'] at hb
      constructor
      · intro hpre
        have hc := isPrefixOf_of_pre hpre
        rw [hb.1] at hc
        exact Bool.noConfusion hc
      · intro hpre
        have hc := isPrefixOf_of_pre hpre
        rw [hb.2] at hc
        exact Bool.noConfusion hc
  · intro t ht hne
    have hb := List.all_eq_true.mp h2 t ht
    rw [Bool.or_eq_true] at hb
    rcases hb with hb | hb
    · cases t with
      | nil => exact absurd rfl hne
      | cons c t2 => exact absurd hb (by simp [List.isEmpty])
    · rw [Bool.and_eq_true, Bool.not_eq_true', Bool.not_eq_true'] at hb
      constructor
      · intro hpre
        have hc := isPrefixOf_of_pre hpre
        rw [hb.1] at hc
        exact Bool.noConfusion hc
      · intro hpre
        have hc := isPrefixOf_of_pre hpre
        rw [hb.2] at hc
        exact Bool.noConfusion hc

def rulesIndepB : Bool :=
  rules.all fun p => rules.all fun p2 => indepB p.1 p2.2

/-- Every pattern of the table is independent of every replacement text of
the table: the pattern occurs in no replacement, contains no replacement,
and cannot straddle the boundary of an inserted replacement in either
direction. -/
theorem rulesIndep : ∀ p ∈ rules, ∀ p2 ∈ rules, Indep p.1 p2.2 := by
  have hB : rulesIndepB = true := by rfl
  intro p hp p2 hp2
  exact indepB_sound (List.all_eq_true.mp (List.all_eq_true.mp hB p hp) p2 hp2)

/-- A run of rules over a document in which none of their patterns occur is
the identity. -/
theorem foldl_noop {s : List Char} :
    ∀ (rs : List (List Char × List Char)), (∀ p ∈ rs, ¬ p.1 <:+: s) →
      List.foldl applyRule s rs = s := by
  intro rs
  induction rs with
  | nil =>
    intro _
    rfl
  | cons p rs2 ih =>
    intro h
    have h1 : applyRule s p = s := replaceAll_noop (h p (List.mem_cons_self p rs2))
    show List.foldl applyRule (applyRule s p) rs2 = s
    rw [h1]
    exact ih fun p2 hp2 => h p2 (List.mem_cons_of_mem p hp2)

/-- A run of rules cannot create an occurrence of a pattern q that is
independent of all their replacement texts. -/
theorem foldl_no_create {q : List Char} :
    ∀ (rs : List (List Char × List Char)) (s : List Char),
      (∀ p ∈ rs, p.1 ≠ [] ∧ Indep q p.2) → ¬ q <:+: s →
      ¬ q <:+: List.foldl applyRule s rs := by
  intro rs
  induction rs with
  | nil =>
    intro s _ hq
    exact hq
  | cons p rs2 ih =>
    intro s hall hq
    show ¬ q <:+: List.foldl applyRule (applyRule s p) rs2
    refine ih (applyRule s p) (fun p2 hp2 => hall p2 (List.mem_cons_of_mem p hp2)) ?_
    intro hocc
    have hp := hall p (List.mem_cons_self p rs2)
    exact hq (splits_no_create hp.2 (splits_replaceAll p.1 p.2 hp.1 s) hocc)

/-- A run of rules whose patterns are all separated from q preserves every
occurrence of q. -/
theorem foldl_preserved {q : List Char} :
    ∀ (rs : List (List Char × List Char)) (s : List Char),
      (∀ p ∈ rs, p.1 ≠ [] ∧ SepPair p.1 q) → q <:+: s →
      q <:+: List.foldl applyRule s rs := by
  intro rs
  induction rs with
  | nil =>
    intro s _ hq
    exact hq
  | cons p rs2 ih =>
    intro s hall hq
    show q <:+: List.foldl applyRule (applyRule s p) rs2
    have hp := hall p (List.mem_cons_self p rs2)
    refine ih (applyRule s p) (fun p2 hp2 => hall p2 (List.mem_cons_of_mem p hp2)) ?_
    exact splits_preserved hp.2 (splits_replaceAll p.1 p.2 hp.1 s) hq

/-- After a full run of the pipeline, no pattern of the table occurs
anywhere in the result. -/
theorem patch_no_match : ∀ p ∈ rules, ∀ d, ¬ p.1 <:+: patch d := by
  intro p hp d
  obtain ⟨l1, l2, hdec⟩ := List.append_of_mem hp
  have hmem2 : ∀ p2 ∈ l2, p2 ∈ rules := by
    intro p2 hp2
    rw [hdec]
    exact List.mem_append_right l1 (List.mem_cons_of_mem p hp2)
  show ¬ p.1 <:+: List.foldl applyRule d rules
  rw [hdec, List.foldl_append]
  show ¬ p.1 <:+: List.foldl applyRule (applyRule (List.foldl applyRule d l1) p) l2
  refine foldl_no_create l2 _ ?_ ?_
  · intro p2 hp2
    exact ⟨rulesNE p2 (hmem2 p2 hp2), rulesIndep p hp p2 (hmem2 p2 hp2)⟩
  · exact splits_no_self (rulesNE p hp) (rulesIndep p hp p hp)
      (splits_replaceAll p.1 p.2 (rulesNE p hp) _)

/-- C1: the content transformation is idempotent.  A second run of the full
pipeline over an already patched document is the identity, because no
pattern of the table occurs in the output of the first run. -/
theorem patch_idempotent (d : List Char) : patch (patch d) = patch d := by
  show List.foldl applyRule (patch d) rules = patch d
  exact foldl_noop rules fun p hp => patch_no_match p hp d

/-- Build of the greedy split for a document with a marked occurrence: no
occurrence of m starts strictly inside u, the marked occurrence follows u,
and m does not occur in v. -/
theorem splits_unique_build {m r : List Char} (hm : m ≠ []) :
    ∀ (u v : List Char),
      (∀ i, i < u.length → ¬ m <+: (List.drop i u ++ (m ++ v))) →
      ¬ m <:+: v →
      Splits m r (u ++ (m ++ v)) (u ++ (r ++ v)) := by
  intro u
  induction u with
  | nil =>
    intro v _ hv
    show Splits m r (m ++ v) (r ++ v)
    exact Splits.rep v v hm (splits_of_noocc hv)
  | cons c u2 ih =>
    intro v hu hv
    show Splits m r (c :: (u2 ++ (m ++ v))) (c :: (u2 ++ (r ++ v)))
    refine Splits.keep _ _ _ ?_ (ih v ?_ hv)
    · have h0 := hu 0 (by simp)
      simpa using h0
    · intro i hi
      have hs := hu (i + 1) (by simp only [List.length_cons]; omega)
      simpa using hs

/-- A replacement pass on a document with a unique marked occurrence of the
pattern rewrites exactly that occurrence and leaves u and v untouched. -/
theorem replaceAll_unique {m r : List Char} (hm : m ≠ []) (u v : List Char)
    (hu : ∀ i, i < u.length → ¬ m <+: (List.drop i u ++ (m ++ v)))
    (hv : ¬ m <:+: v) :
    replaceAll m r (u ++ (m ++ v)) = u ++ (r ++ v) :=
  (splits_sound (splits_unique_build hm u v hu hv)).symm

/-- Full-pipeline version: if the document contains a unique occurrence of
the pattern of rule p and no occurrence of any other rule pattern, the
pipeline rewrites exactly that occurrence. -/
theorem patch_unique (p : List Char × List Char) (hp : p ∈ rules) (u v : List Char)
    (hu : ∀ i, i < u.length → ¬ p.1 <+: (List.drop i u ++ (p.1 ++ v)))
    (hv : ¬ p.1 <:+: v)
    (ho : ∀ p2 ∈ rules, p2 ≠ p → ¬ p2.1 <:+: (u ++ (p.1 ++ v))) :
    patch (u ++ (p.1 ++ v)) = u ++ (p.2 ++ v) := by
  obtain ⟨l1, l2, hdec⟩ := List.append_of_mem hp
  have hnodup := rulesNodup
  rw [hdec] at hnodup
  have hpnotl1 : p ∉ l1 := by
    intro hmem
    exact (List.disjoint_of_nodup_append hnodup) hmem (List.mem_cons_self p l2)
  have hpnotl2 : p ∉ l2 := by
    have h2 := hnodup.of_append_right
    exact (List.nodup_cons.mp h2).1
  have hmem1 : ∀ p2 ∈ l1, p2 ∈ rules := by
    intro p2 h2
    rw [hdec]
    exact List.mem_append_left _ h2
  have hmem2 : ∀ p2 ∈ l2, p2 ∈ rules := by
    intro p2 h2
    rw [hdec]
    exact List.mem_append_right _ (List.mem_cons_of_mem p h2)
  have hne1 : ∀ p2 ∈ l1, p2 ≠ p := fun p2 h2 he => hpnotl1 (he ▸ h2)
  have hne2 : ∀ p2 ∈ l2, p2 ≠ p := fun p2 h2 he => hpnotl2 (he ▸ h2)
  show List.foldl applyRule (u ++ (p.1 ++ v)) rules = u ++ (p.2 ++ v)
  rw [hdec, List.foldl_append]
  have hst1 : List.foldl applyRule (u ++ (p.1 ++ v)) l1 = u ++ (p.1 ++ v) :=
    foldl_noop l1 fun p2 h2 => ho p2 (hmem1 p2 h2) (hne1 p2 h2)
  rw [hst1]
  show List.foldl applyRule (applyRule (u ++ (p.1 ++ v)) p) l2 = u ++ (p.2 ++ v)
  have hstep : applyRule (u ++ (p.1 ++ v)) p = u ++ (p.2 ++ v) :=
    replaceAll_unique (rulesNE p hp) u v hu hv
  rw [hstep]
  refine foldl_noop l2 ?_
  intro p2 h2 hocc
  have hback : p2.1 <:+: (u ++ (p.1 ++ v)) := by
    have hsp : Splits p.1 p.2 (u ++ (p.1 ++ v)) (u ++ (p.2 ++ v)) := by
      rw [← hstep]
      exact splits_replaceAll p.1 p.2 (rulesNE p hp) _
    exact splits_no_create (rulesIndep p2 (hmem2 p2 h2) p hp) hsp hocc
  exact ho p2 (hmem2 p2 h2) (hne2 p2 h2) hback

/-- C2: a document that contains the DJ-selection alert as a whole line,
exactly once, and contains no occurrence of any other rule pattern, is
rewritten by the pipeline to the same document with that line replaced by
the awaited showAlert call; the surrounding parts u and v are returned byte
for byte, so every other line is byte-identical.  The hypotheses hu and hv
state that the marked occurrence is the only one, and hline1 and hline2
state that the occurrence is a whole line. -/
theorem dj_line_rewrite (u v : List Char)
    (_hline1 : u = [] ∨ u.getLast? = some '\n')
    (_hline2 : v = [] ∨ v.head? = some '\n')
    (hu : ∀ i, i < u.length → ¬ alertSelectDjM <+: (List.drop i u ++ (alertSelectDjM ++ v)))
    (hv : ¬ alertSelectDjM <:+: v)
    (ho : ∀ p2 ∈ rules, p2 ≠ (alertSelectDjM, alertSelectDjR) →
      ¬ p2.1 <:+: (u ++ (alertSelectDjM ++ v))) :
    patch (u ++ (alertSelectDjM ++ v)) = u ++ (alertSelectDjR ++ v) :=
  patch_unique (alertSelectDjM, alertSelectDjR) (by decide) u v hu hv ho

theorem dj_line_rewrite_witness :
    patch (('x' :: '\n' :: []) ++ (alertSelectDjM ++ ('\n' :: 'y' :: []))) =
      ('x' :: '\n' :: []) ++ (alertSelectDjR ++ ('\n' :: 'y' :: [])) :=
  dj_line_rewrite ('x' :: '\n' :: []) ('\n' :: 'y' :: [])
    (Or.inr (by decide)) (Or.inr (by decide)) (by decide) (by decide) (by decide)

/-- Number of positions of s at which m matches. -/
def occCount (m s : List Char) : Nat :=
  (List.range (s.length + 1)).countP fun i => m.isPrefixOf (List.drop i s)

/-- C3 counterexample: the claim quantifies over every document containing
exactly one occurrence of the match of a literal rule and asserts that the
full Patcher changes nothing outside that occurrence.  The document made of
the DJ-selection alert followed by the DOMContentLoaded registration
contains exactly one occurrence of the DJ-selection match, yet the pipeline
also rewrites the DOMContentLoaded region, so the output is not the
document with only the DJ occurrence replaced. -/
theorem single_occurrence_cex :
    occCount alertSelectDjM (alertSelectDjM ++ domLoadedM) = 1 ∧
    patch (alertSelectDjM ++ domLoadedM) ≠ alertSelectDjR ++ domLoadedM := by
  constructor
  · decide
  · decide

/-- C3 amended: for every literal rule p, a document with a unique
occurrence of the pattern of p and with no occurrence of any other rule
pattern (the added hypothesis ho, forced by the counterexample) is rewritten
to u followed by the replacement of p followed by v, so that occurrence is
replaced exactly once and no other region changes. -/
theorem literal_rule_unique_rewrite :
    ∀ p ∈ literalRules, ∀ u v : List Char,
      (∀ i, i < u.length → ¬ p.1 <+: (List.drop i u ++ (p.1 ++ v))) →
      ¬ p.1 <:+: v →
      (∀ p2 ∈ rules, p2 ≠ p → ¬ p2.1 <:+: (u ++ (p.1 ++ v))) →
      patch (u ++ (p.1 ++ v)) = u ++ (p.2 ++ v) := by
  intro p hp u v hu hv ho
  exact patch_unique p (List.mem_append_left _ hp) u v hu hv ho

theorem literal_rule_unique_rewrite_witness :
    patch (([] : List Char) ++ (alertSelectDateM ++ [])) = [] ++ (alertSelectDateR ++ []) :=
  literal_rule_unique_rewrite (alertSelectDateM, alertSelectDateR) (by decide) [] []
    (by decide) (by decide) (by decide)

/-- C4: a literal rule whose pattern does not occur in the document is the
identity on it; the application step is a total function, so nothing can
fail. -/
theorem literal_rule_noop :
    ∀ p ∈ literalRules, ∀ d : List Char, ¬ p.1 <:+: d → replaceAll p.1 p.2 d = d := by
  intro p _ d h
  exact replaceAll_noop h

theorem literal_rule_noop_witness :
    replaceAll alertLoginBookingM alertLoginBookingR (("hello world").data) =
      ("hello world").data :=
  literal_rule_noop (alertLoginBookingM, alertLoginBookingR) (by decide)
    (("hello world").data) (by decide)

/-- C5: the regex rule, embedded as the literal rewrite of its unique match.
First, a document without the pattern is left untouched.  Second, after the
rule runs no occurrence of the pattern remains, so every occurrence was
rewritten.  Third, a unique marked occurrence is rewritten in place to the
async form with the surroundings returned byte for byte. -/
theorem ctc_regex_rule :
    (∀ d : List Char, ¬ ctcM <:+: d → replaceAll ctcM ctcR d = d) ∧
    (∀ d : List Char, ¬ ctcM <:+: replaceAll ctcM ctcR d) ∧
    (∀ u v : List Char,
      (∀ i, i < u.length → ¬ ctcM <+: (List.drop i u ++ (ctcM ++ v))) →
      ¬ ctcM <:+: v →
      replaceAll ctcM ctcR (u ++ (ctcM ++ v)) = u ++ (ctcR ++ v)) := by
  refine ⟨?_, ?_, ?_⟩
  · intro d h
    exact replaceAll_noop h
  · intro d
    exact splits_no_self (by decide) (by decide) (splits_replaceAll ctcM ctcR (by decide) d)
  · intro u v hu hv
    exact replaceAll_unique (by decide) u v hu hv

theorem ctc_regex_rule_witness :
    replaceAll ctcM ctcR (("goToCheckout() \x7b").data) = ("goToCheckout() \x7b").data ∧
    ¬ ctcM <:+: replaceAll ctcM ctcR ctcM ∧
    replaceAll ctcM ctcR (([] : List Char) ++ (ctcM ++ [])) = [] ++ (ctcR ++ []) :=
  ⟨ctc_regex_rule.1 (("goToCheckout() \x7b").data) (by decide),
   ctc_regex_rule.2.1 ctcM,
   ctc_regex_rule.2.2 [] [] (by decide) (by decide)⟩

/-- The first fourteen literal rules, those applied before the
DOMContentLoaded rule. -/
theorem rules_decomp :
    rules = List.take 14 literalRules ++ ((domLoadedM, domLoadedR) :: ((ctcM, ctcR) :: [])) :=
  rfl

def sepDomB : Bool :=
  (List.take 14 literalRules).all fun p => sepB p.1 domLoadedM

theorem sepDom : ∀ p ∈ List.take 14 literalRules, SepPair p.1 domLoadedM := by
  have hB : sepDomB = true := by rfl
  intro p hp
  exact sepB_sound (List.all_eq_true.mp hB p hp)

theorem sepCtcDomR : SepPair ctcM domLoadedR :=
  sepB_sound (by rfl)

/-- C6: every document containing the DOMContentLoaded registration is
rewritten so that the async form occurs in the output and the original
non-async form does not occur at all; in particular each occurrence now
reads the async form.  The first fourteen rules cannot touch any character
of such an occurrence, the fifteenth rule rewrites every occurrence, and the
final regex rule cannot touch the rewritten text. -/
theorem dom_loaded_ne : domLoadedM ≠ [] := by decide

theorem ctc_ne : ctcM ≠ [] := by decide

theorem patch_decomp (x : List Char) :
    patch x = replaceAll ctcM ctcR
      (replaceAll domLoadedM domLoadedR
        (List.foldl applyRule x (List.take 14 literalRules))) := by
  show List.foldl applyRule x rules = _
  rw [rules_decomp, List.foldl_append]
  rfl

theorem dom_loaded_rewrite (d : List Char) (h : domLoadedM <:+: d) :
    domLoadedR <:+: patch d ∧ ¬ domLoadedM <:+: patch d := by
  constructor
  · rw [patch_decomp d]
    have hA : domLoadedM <:+: List.foldl applyRule d (List.take 14 literalRules) := by
      refine foldl_preserved _ d ?_ h
      intro p hp
      have hpr : p ∈ rules := List.mem_append_left _ (List.take_subset 14 literalRules hp)
      exact ⟨rulesNE p hpr, sepDom p hp⟩
    have hB : domLoadedR <:+:
        replaceAll domLoadedM domLoadedR
          (List.foldl applyRule d (List.take 14 literalRules)) :=
      splits_hits dom_loaded_ne
        (splits_replaceAll domLoadedM domLoadedR dom_loaded_ne _) hA
    exact splits_preserved sepCtcDomR (splits_replaceAll ctcM ctcR ctc_ne _) hB
  · exact patch_no_match (domLoadedM, domLoadedR) (by decide) d

theorem dom_loaded_rewrite_witness :
    domLoadedR <:+: patch domLoadedM ∧ ¬ domLoadedM <:+: patch domLoadedM :=
  dom_loaded_rewrite domLoadedM (by decide)

/-!
Model of the input and output of the run: a tiny filesystem mapping paths to
text contents, read and written with first-match association-list semantics.
The script opens the source path for reading, opens the modal fragment path
for reading, and only then opens the source path for writing.  Opening a
missing file for reading raises an error that aborts the run, modelled by
the error branch of runPatcher.  The constant block of modal script text the
program also defines is held in memory and never written anywhere, so it
does not appear in this model of observable behaviour.
-/

def sourcePath : String := "src/index.tsx"

def modalPath : String := "modal-inject.html"

def fsRead : List (String × List Char) → String → Option (List Char)
  | [], _ => none
  | (q, c) :: fs, p => if q = p then some c else fsRead fs p

def fsWrite (fs : List (String × List Char)) (p : String) (c : List Char) :
    List (String × List Char) :=
  (p, c) :: fs

/-- One run of the script over the filesystem fs: read the source file,
read the modal HTML fragment, apply the replacement pipeline to the source
content only, and write the result back to the source path.  The modal
content is bound but never used, exactly as in the script. -/
def runPatcher (fs : List (String × List Char)) : Except Unit (List (String × List Char)) :=
  match fsRead fs sourcePath with
  | none => Except.error ()
  | some content =>
    match fsRead fs modalPath with
    | none => Except.error ()
    | some _ => Except.ok (fsWrite fs sourcePath (patch content))

/-- The filesystem after a run: unchanged when the run fails. -/
def runResultFS (fs : List (String × List Char)) : List (String × List Char) :=
  match runPatcher fs with
  | Except.error _ => fs
  | Except.ok fs2 => fs2

/-- C7: if either read fails, the run fails with the error before any write
occurs and the filesystem is unchanged; in particular a missing source file
remains absent.  The write step is reached only when both reads succeed,
since runPatcher only produces a written filesystem in the branch where both
reads returned contents. -/
theorem run_read_failure (fs : List (String × List Char))
    (h : fsRead fs sourcePath = none ∨ fsRead fs modalPath = none) :
    runPatcher fs = Except.error () ∧ runResultFS fs = fs := by
  have herr : runPatcher fs = Except.error () := by
    rcases h with h | h
    · simp [runPatcher, h]
    · cases he : fsRead fs sourcePath with
      | none => simp [runPatcher, he]
      | some c => simp [runPatcher, he, h]
  exact ⟨herr, by simp [runResultFS, herr]⟩

theorem run_read_failure_witness :
    runPatcher [] = Except.error () ∧ runResultFS [] = ([] : List (String × List Char)) :=
  run_read_failure [] (Or.inl rfl)

/-- C8: the written content does not depend on the content of the modal
HTML fragment.  Two runs over filesystems holding the same source document,
each with some modal fragment present, both succeed and both leave the same
content at the source path, namely the patched source document. -/
theorem modal_noninterference (c : List Char) (fs1 fs2 : List (String × List Char))
    (h1 : fsRead fs1 sourcePath = some c) (h2 : fsRead fs2 sourcePath = some c)
    (hm1 : (fsRead fs1 modalPath).isSome = true)
    (hm2 : (fsRead fs2 modalPath).isSome = true) :
    fsRead (runResultFS fs1) sourcePath = some (patch c) ∧
    fsRead (runResultFS fs2) sourcePath = some (patch c) := by
  obtain ⟨m1, hm1e⟩ := Option.isSome_iff_exists.mp hm1
  obtain ⟨m2, hm2e⟩ := Option.isSome_iff_exists.mp hm2
  have r1 : runPatcher fs1 = Except.ok (fsWrite fs1 sourcePath (patch c)) := by
    simp [runPatcher, h1, hm1e]
  have r2 : runPatcher fs2 = Except.ok (fsWrite fs2 sourcePath (patch c)) := by
    simp [runPatcher, h2, hm2e]
  constructor
  · simp [runResultFS, r1, fsWrite, fsRead]
  · simp [runResultFS, r2, fsWrite, fsRead]

theorem modal_noninterference_witness :
    fsRead (runResultFS [(sourcePath, alertSelectDjM), (modalPath, ("<div>").data)])
        sourcePath = some (patch alertSelectDjM) ∧
    fsRead (runResultFS [(sourcePath, alertSelectDjM), (modalPath, ("<span>").data)])
        sourcePath = some (patch alertSelectDjM) :=
  modal_noninterference alertSelectDjM
    [(sourcePath, alertSelectDjM), (modalPath, ("<div>").data)]
    [(sourcePath, alertSelectDjM), (modalPath, ("<span>").data)]
    (by decide) (by decide) (by decide) (by decide)

def noCascGo : List (List Char × List Char) → Bool
  | [] => true
  | p :: l => (l.all fun p2 => !(infB p2.1 p.2)) && noCascGo l

theorem pairwise_of_noCascGo :
    ∀ l : List (List Char × List Char), noCascGo l = true →
      List.Pairwise (fun p p2 => ¬ p2.1 <:+: p.2) l := by
  intro l
  induction l with
  | nil =>
    intro _
    exact List.Pairwise.nil
  | cons p l2 ih =>
    intro h
    simp only [noCascGo, Bool.and_eq_true] at h
    refine List.Pairwise.cons ?_ (ih h.2)
    intro p2 hp2
    have hb := List.all_eq_true.mp h.1 p2 hp2
    rw [Bool.not_eq_true'] at hb
    exact not_inf_of_infB_false hb

/-- C9: no rule acts on text introduced by an earlier rule: for every pair
of rules in declaration order, the replacement text of the earlier rule
contains no occurrence of the later rule pattern (the regex pattern being
its literal match), so applying the rules in declaration order causes no
cascading rewrites within the rule set. -/
theorem no_cascading : List.Pairwise (fun p p2 => ¬ p2.1 <:+: p.2) rules :=
  pairwise_of_noCascGo rules (by rfl)

/-- C10: the three emoji-prefixed alert rules do not preserve the message
argument: the pipeline maps each of the three alert calls to a dialog call
whose message lacks the leading emoji and its following space, and the emoji
character present in each match is absent from the corresponding
replacement, so the displayed text differs from the original alert text. -/
theorem emoji_rules_drop_emoji :
    patch alertStatusUpdatedM = alertStatusUpdatedR ∧
    patch alertFailedUpdateM = alertFailedUpdateR ∧
    patch alertErrorUpdatingM = alertErrorUpdatingR ∧
    ('✅' ∈ alertStatusUpdatedM ∧ '✅' ∉ alertStatusUpdatedR) ∧
    ('❌' ∈ alertFailedUpdateM ∧ '❌' ∉ alertFailedUpdateR) ∧
    ('❌' ∈ alertErrorUpdatingM ∧ '❌' ∉ alertErrorUpdatingR) :=
  ⟨by decide, by decide, by decide, by decide, by decide, by decide⟩

end FixModals
